import Mathlib

/-!
Verification of the `desktopfile` library (a Go parser and data model for
freedesktop `.desktop` files) against its natural-language specification.

Go strings are modelled as `List Char`; Go byte/rune indexing, slicing and
the `strings` package helpers used by the source are modelled by explicit
recursive functions on `List Char`.  Functions that can panic at run time
(out-of-range slice indices) are modelled as returning `Option`, with
`none` standing for the panic.
-/

namespace DeskFile

/-- Model of a Go string: a sequence of characters. -/
abbrev GoStr := List Char

/-- Model of `strings.Index(s, string(c))` for a single-character pattern:
index of the first occurrence, `none` for Go's `-1`. -/
def charIndex : GoStr → Char → Option Nat
  | [], _ => none
  | a :: rest, c => if a = c then some 0 else (charIndex rest c).map (· + 1)

/-- Model of `strings.Contains(s, string(c))` for a single character. -/
def containsChar (s : GoStr) (c : Char) : Bool := s.contains c

/-- Model of `strings.HasSuffix(s, string(c))` for a single character. -/
def endsWithChar (s : GoStr) (c : Char) : Bool := s.getLast? = some c

/-- Model of `strings.HasPrefix(s, string(c))` for a single character. -/
def startsWithChar (s : GoStr) (c : Char) : Bool := s.head? = some c

/-- Model of `strings.TrimPrefix(s, string(c))`: drop one leading `c` if present. -/
def trimPreChar (s : GoStr) (c : Char) : GoStr :=
  match s with
  | [] => []
  | a :: rest => if a = c then rest else a :: rest

/-- Model of `strings.TrimSuffix(s, string(c))`: drop one trailing `c` if present. -/
def trimSufChar (s : GoStr) (c : Char) : GoStr :=
  if endsWithChar s c then s.dropLast else s

/-- The character class accepted by Go's `unicode.IsSpace` (the Latin-1 range). -/
def isSpaceGo (c : Char) : Bool :=
  c = ' ' || c = '\t' || c = '\n' || c = Char.ofNat 11 || c = Char.ofNat 12 ||
  c = '\r' || c = Char.ofNat 133 || c = Char.ofNat 160

/-- Model of `strings.TrimSpace`: trim `unicode.IsSpace` characters on both ends. -/
def trimSpaceGo (s : GoStr) : GoStr :=
  ((s.dropWhile isSpaceGo).reverse.dropWhile isSpaceGo).reverse

/-- Split a string at every occurrence of the character `c`
(model of `strings.Split(s, string(c))`). -/
def splitChar (c : Char) : GoStr → List GoStr
  | [] => [[]]
  | a :: rest =>
    if a = c then [] :: splitChar c rest
    else
      match splitChar c rest with
      | s :: segs => (a :: s) :: segs
      | [] => [[a]]

/-- Model of `strings.ToLower`, character by character. -/
def toLowerStr (s : GoStr) : GoStr := s.map Char.toLower

/-- Model of `strings.ToUpper`, character by character. -/
def toUpperStr (s : GoStr) : GoStr := s.map Char.toUpper

/-- `Locale` is the information about a locale given for an Entry
(fields `Language`, `Country`, `Modifier` of the Go struct). -/
structure Locale where
  language : GoStr
  country : GoStr
  modifier : GoStr
deriving DecidableEq, Repr

/-- Model of `LocaleFromString` (the version taking `lang_COUNTRY@MODIFIER`).
Faithful to the source: in the branch where both `_` and `@` occur the code
slices `locale[underInd+1 : atInd]` — when `@` occurs before `_` this slice
has inverted bounds and the Go code panics, modelled as `none` — and sets
`Modifier = locale[atInd:]`, which keeps the leading `@`.  A `.` inside the
extracted country discards everything from the `.` onward. -/
def localeFromString (s : GoStr) : Option Locale :=
  let out : Option Locale :=
    match charIndex s '_', charIndex s '@' with
    | none, none => some ⟨s, [], []⟩
    | none, some a => some ⟨s.take a, [], s.drop (a + 1)⟩
    | some u, none => some ⟨s.take u, s.drop (u + 1), []⟩
    | some u, some a =>
      if a < u + 1 then none
      else some ⟨s.take u, (s.drop (u + 1)).take (a - (u + 1)), s.drop a⟩
  match out with
  | none => none
  | some l =>
    match charIndex l.country '.' with
    | none => some l
    | some d => some { l with country := l.country.take d }

/-- Model of `Locale.String`: lowercased language, then `_` with the
uppercased country when non-empty, then `@` with the uppercased modifier
when non-empty. -/
def localeString (l : Locale) : GoStr :=
  toLowerStr l.language ++
  (if l.country = [] then [] else '_' :: toUpperStr l.country) ++
  (if l.modifier = [] then [] else '@' :: toUpperStr l.modifier)

/-- The replacement character the source's `escapeReplacer` pairs with `"\\s"`.
The source bytes hold a non-ASCII character here (U+00A0 NO-BREAK SPACE in
one revision of the file, its double-encoded form in the other), not the
ASCII space the documentation of the format prescribes. -/
def nbspChar : Char := Char.ofNat 160

/-- Model of `escapeReplacer.Replace` / `Value.String`: a single left-to-right
scan replacing the two-character tokens of
`strings.NewReplacer("\\s", …, "\\n", "\n", "\\t", "\t", "\\r", "\r", "\\\\", "\\")`,
continuing after each replacement without re-scanning replaced output. -/
def valueString : GoStr → GoStr
  | '\\' :: 's' :: rest => nbspChar :: valueString rest
  | '\\' :: 'n' :: rest => '\n' :: valueString rest
  | '\\' :: 't' :: rest => '\t' :: valueString rest
  | '\\' :: 'r' :: rest => '\r' :: valueString rest
  | '\\' :: '\\' :: rest => '\\' :: valueString rest
  | c :: rest => c :: valueString rest
  | [] => []

/-- Model of `strings.Count(v, ";")`: number of semicolons. -/
def countSemiGo : GoStr → Nat
  | [] => 0
  | c :: rest => (if c = ';' then 1 else 0) + countSemiGo rest

/-- Model of `strings.Count(v, "\\;")`: number of non-overlapping occurrences
of the two-character pattern, scanning left to right and skipping past
each match. -/
def countEscSemiGo : GoStr → Nat
  | '\\' :: ';' :: rest => 1 + countEscSemiGo rest
  | _ :: rest => countEscSemiGo rest
  | [] => 0

/-- Model of `Value.IsArray`: `strings.Count(v, "\\;") < strings.Count(v, ";")`. -/
def isArray (v : GoStr) : Bool := countEscSemiGo v < countSemiGo v

/-- The merging loop inside `Value.AsArray`, viewed from the current element
`a = split[i]`: while `a` ends with a backslash, replace it by
`a[:len-1] + ";" + split[i+1]` and delete element `i+1`.  Reading
`split[i+1]` when `i` is the last index is an out-of-range panic in Go,
modelled as `none`. -/
def mergeFrom (a : GoStr) : List GoStr → Option (List GoStr)
  | [] => if endsWithChar a '\\' then none else some [a]
  | b :: rest =>
    if endsWithChar a '\\' then mergeFrom (a.dropLast ++ ';' :: b) rest
    else (mergeFrom b rest).map (a :: ·)

/-- The merging loop of `Value.AsArray` over the whole segment list. -/
def mergeSegs : List GoStr → Option (List GoStr)
  | [] => some []
  | a :: rest => mergeFrom a rest

/-- Model of `Value.AsArray`: split on `;`, drop the final empty segment when
the value ends with `;`, then run the backslash-merging loop; `none` models
the out-of-range panic of that loop. -/
def asArray (v : GoStr) : Option (List GoStr) :=
  let split := splitChar ';' v
  let split := if endsWithChar v ';' then split.dropLast else split
  mergeSegs split

/-- `LocaleValue` is a value for an Entry with a specific locale
(fields `Value`, `Comment` of the Go struct). -/
structure LocaleValue where
  value : GoStr
  comment : GoStr
deriving DecidableEq, Repr

/-- `Entry` represents a key value pair.  The Go struct's
`locales map[Locale]*LocaleValue` is modelled as an association list (the
parser and `AddLocale` keep its keys unique); `localeOrder` records
insertion order as in the source.  The non-owning `parent` back-reference
is not modelled. -/
structure Entry where
  value : GoStr
  comment : GoStr
  locales : List (Locale × LocaleValue)
  localeOrder : List Locale
deriving DecidableEq, Repr

/-- An `Entry` as freshly created by `AddEntry` / the parser. -/
def emptyEntry : Entry := ⟨[], [], [], []⟩

/-- The loop body of `Entry.ValueAtLocale`: walk the locale variants,
returning immediately on an exact three-field match, otherwise remembering
the first variant whose Language matches and upgrading the remembered
candidate at the first variant whose Language and Country both match.
In the source the remembered candidate is the map key `matchedLocal` and
the function ends with the map lookup `e.locales[*matchedLocal].Value`;
since map lookup of a remembered key returns that key's value, the model
carries the candidate's value directly. -/
def valGo (l : Locale) : List (Locale × LocaleValue) → Option GoStr → Bool → Bool → Option GoStr
  | [], cand, _, _ => cand
  | (i, lv) :: rest, cand, mL, mC =>
    if l.language ≠ i.language then valGo l rest cand mL mC
    else
      let cand1 := if mL then cand else some lv.value
      if l.country ≠ i.country then valGo l rest cand1 true mC
      else
        let cand2 := if mC then cand1 else some lv.value
        if l.modifier = i.modifier then some lv.value
        else valGo l rest cand2 true true

/-- Model of `Entry.ValueAtLocale`: run the loop; if no variant's Language
matched, fall back to the Entry's default Value. -/
def valueAtLocale (e : Entry) (l : Locale) : GoStr :=
  match valGo l e.locales none false false with
  | some v => v
  | none => e.value

/-- First variant whose Language, Country and Modifier all match the query. -/
def findT3 (l : Locale) (lvs : List (Locale × LocaleValue)) : Option (Locale × LocaleValue) :=
  lvs.find? (fun p =>
    l.language = p.1.language ∧ l.country = p.1.country ∧ l.modifier = p.1.modifier)

/-- First variant whose Language and Country both match the query. -/
def findT2 (l : Locale) (lvs : List (Locale × LocaleValue)) : Option (Locale × LocaleValue) :=
  lvs.find? (fun p => l.language = p.1.language ∧ l.country = p.1.country)

/-- First variant whose Language matches the query. -/
def findT1 (l : Locale) (lvs : List (Locale × LocaleValue)) : Option (Locale × LocaleValue) :=
  lvs.find? (fun p => l.language = p.1.language)

/-- The three-tier resolution rule as the specification states it: the first
variant (in order) matching Language, Country and Modifier; otherwise the
first variant matching Language and Country; otherwise the first variant
matching Language; otherwise the default value. -/
def resolveSpec (e : Entry) (l : Locale) : GoStr :=
  match findT3 l e.locales with
  | some p => p.2.value
  | none =>
    match findT2 l e.locales with
    | some p => p.2.value
    | none =>
      match findT1 l e.locales with
      | some p => p.2.value
      | none => e.value

/-- `Group` is a set of Entries under a group header; the Go struct's
`entries map[string]*Entry` is modelled as an association list with unique
keys, `entryOrder` records insertion order.  The `parent` back-reference is
not modelled. -/
structure Group where
  entries : List (GoStr × Entry)
  comment : GoStr
  entryOrder : List GoStr
deriving DecidableEq, Repr

/-- A `Group` as freshly created by `AddGroup` / the parser. -/
def emptyGroup : Group := ⟨[], [], []⟩

/-- `Options` are options for when reading or writing a File. -/
structure Options where
  defaultLocale : Option Locale
  allowDuplicateKeysJoin : Bool
  allowDuplicateKeysIgnore : Bool
  allowDuplicateGroups : Bool
deriving DecidableEq, Repr

/-- Model of `DefaultOptions` / the zero `Options{}` value. -/
def defaultOptions : Options := ⟨none, false, false, false⟩

/-- `File` is a representation of a `.desktop` file; `rawMap` is modelled as
an association list with unique keys, and `groupOrder` is the insertion-order
sequence of group names. -/
structure File where
  rawMap : List (GoStr × Group)
  options : Options
  endingComment : GoStr
  groupOrder : List GoStr
deriving DecidableEq, Repr

/-- Go map lookup `m[k]` on the association-list model. -/
def lookupA {V : Type} (k : GoStr) (l : List (GoStr × V)) : Option V :=
  (l.find? (fun p => p.1 = k)).map (·.2)

/-- In-place update of the value stored at a key (the Go code mutates the
struct behind the map's pointer). -/
def updA {V : Type} (k : GoStr) (fn : V → V) : List (GoStr × V) → List (GoStr × V)
  | [] => []
  | (k1, v) :: rest => if k1 = k then (k1, fn v) :: rest else (k1, v) :: updA k fn rest

/-- Lookup in the Entry's locale map. -/
def lookupL (k : Locale) (l : List (Locale × LocaleValue)) : Option LocaleValue :=
  (l.find? (fun p => p.1 = k)).map (·.2)

/-- In-place update in the Entry's locale map. -/
def updL (k : Locale) (fn : LocaleValue → LocaleValue) :
    List (Locale × LocaleValue) → List (Locale × LocaleValue)
  | [] => []
  | (k1, v) :: rest => if k1 = k then (k1, fn v) :: rest else (k1, v) :: updL k fn rest

/-- Model of `File.AddGroup`: return the existing group if present, else
register a fresh group under the name.  Faithful to the source, which never
touches `groupOrder` here. -/
def addGroup (f : File) (name : GoStr) : File × Group :=
  match lookupA name f.rawMap with
  | some g => (f, g)
  | none => ({ f with rawMap := f.rawMap ++ [(name, emptyGroup)] }, emptyGroup)

/-- Model of `Group.AddEntry`: return the existing entry if present, else
register a fresh entry and append the key to `entryOrder`. -/
def addEntry (g : Group) (key : GoStr) : Group × Entry :=
  match lookupA key g.entries with
  | some e => (g, e)
  | none =>
    ({ g with entries := g.entries ++ [(key, emptyEntry)],
              entryOrder := g.entryOrder ++ [key] }, emptyEntry)

/-- Structured model of the parse errors `OpenWithOptions` builds with
`errors.New`, each carrying the 1-based line number. -/
inductive ParseError where
  | notAKey (line : Nat)
  | keyBeforeGroup (line : Nat)
  | duplicateGroup (line : Nat) (name : GoStr)
  | duplicateKey (line : Nat) (key : GoStr)
deriving DecidableEq, Repr

/-- Outcome of a parse: the built `File` or a returned error. -/
inductive ParseOut where
  | ok (f : File)
  | fail (e : ParseError)
deriving DecidableEq, Repr

/-- Outcome of processing one key-value line. -/
inductive StepRes where
  | cont (f : File) (ct : GoStr)
  | fail (e : ParseError)
deriving DecidableEq, Repr

/-- The logical lines `bufio.Reader.ReadString('\n')` delivers to the loop:
the `'\n'`-separated segments of the input, except that when the input is
empty or ends with `'\n'` the final empty read hits `io.EOF` and breaks the
loop before being processed. -/
def goLines (s : GoStr) : List GoStr :=
  let segs := splitChar '\n' s
  match segs.getLast? with
  | some [] => segs.dropLast
  | _ => segs

/-- The comment accumulation of the parser: append the line, inserting a
newline unless the accumulator already ends with one. -/
def commentAppend (ct line : GoStr) : GoStr :=
  if endsWithChar ct '\n' then ct ++ line else ct ++ '\n' :: line

/-- Processing of one key-value line (the part of `OpenWithOptions` after the
`=` index is found and the current group is known).  Faithful to the source:
the locale-suffix branch tests `strings.HasSuffix(key, "]") &&
strings.Contains(key, "]")` — note `"]"`, not `"["` — and then slices
`key[strings.Index(key, "[")+1 : len(key)-1]` and
`key[:strings.Index(key, "[")]`; when the key contains no `[` the second
slice has a negative bound and Go panics, modelled as `none`, as is a panic
inside `LocaleFromString`. -/
def keyValStep (op : Options) (ln : Nat) (gname : GoStr) (line : GoStr) (eq : Nat)
    (f : File) (ct : GoStr) : Option StepRes :=
  let key0 := trimSpaceGo (line.take eq)
  let value := trimSpaceGo (line.drop (eq + 1))
  let locExtract : Option (Option Locale × GoStr) :=
    if endsWithChar key0 ']' && containsChar key0 ']' then
      match charIndex key0 '[' with
      | none => none
      | some li =>
        match localeFromString ((key0.drop (li + 1)).take (key0.length - 1 - (li + 1))) with
        | none => none
        | some loc => some (some loc, trimSpaceGo (key0.take li))
    else some (none, key0)
  match locExtract with
  | none => none
  | some (locO, key) =>
    let setG := fun (f2 : File) (fn : Group → Group) =>
      { f2 with rawMap := updA gname fn f2.rawMap }
    let setE := fun (f2 : File) (k2 : GoStr) (fn : Entry → Entry) =>
      setG f2 (fun gg => { gg with entries := updA k2 fn gg.entries })
    let g := (lookupA gname f.rawMap).getD emptyGroup
    let afterDefault : StepRes :=
      match lookupA key g.entries with
      | none =>
        let g1 : Group := { g with entries := g.entries ++ [(key, emptyEntry)],
                                   entryOrder := g.entryOrder ++ [key] }
        match locO with
        | none =>
          StepRes.cont (setE (setG f (fun _ => g1)) key
            (fun e => { e with value := value, comment := ct })) []
        | some _ =>
          StepRes.cont (setG f (fun _ => g1)) ct
      | some _ =>
        match locO with
        | none =>
          if op.allowDuplicateKeysJoin then
            StepRes.cont (setE f key
              (fun e => { e with value := e.value ++ value, comment := e.comment ++ ct })) []
          else if !op.allowDuplicateKeysIgnore then
            StepRes.fail (ParseError.duplicateKey ln key)
          else StepRes.cont f ct
        | some _ =>
          StepRes.cont f ct
    match afterDefault with
    | StepRes.fail e => some (StepRes.fail e)
    | StepRes.cont f1 ct1 =>
      match locO with
      | none => some (StepRes.cont f1 ct1)
      | some loc =>
        let g2 := (lookupA gname f1.rawMap).getD emptyGroup
        let e2 := (lookupA key g2.entries).getD emptyEntry
        match lookupL loc e2.locales with
        | some _ =>
          if op.allowDuplicateKeysJoin then
            some (StepRes.cont (setE f1 key
              (fun e => { e with locales :=
                (updL loc (fun lv => { lv with value := lv.value ++ value,
                                               comment := lv.comment ++ ct1 }) e.locales) })) [])
          else if !op.allowDuplicateKeysIgnore then
            some (StepRes.fail (ParseError.duplicateKey ln key0))
          else some (StepRes.cont f1 ct1)
        | none =>
          some (StepRes.cont (setE f1 key
            (fun e => { e with locales := e.locales ++ [(loc, ⟨value, ct1⟩)],
                               localeOrder := e.localeOrder ++ [loc] })) [])

/-- The main loop of `OpenWithOptions` over the logical lines, carrying the
line number, the file under construction, the current group name (the
`curGroup` pointer) and the pending comment accumulator. -/
def runLines (op : Options) : Nat → List GoStr → File → Option GoStr → GoStr → Option ParseOut
  | _, [], f, _, ct =>
    some (ParseOut.ok (if ct ≠ [] then { f with endingComment := ct } else f))
  | ln, rawLine :: rest, f, cur, ct =>
    let line := trimSufChar (trimSpaceGo rawLine) '\n'
    if startsWithChar line '#' || line.isEmpty then
      runLines op (ln + 1) rest f cur (commentAppend ct line)
    else if startsWithChar line '[' && endsWithChar line ']' then
      let gname := trimSpaceGo (trimSufChar (trimPreChar line '[') ']')
      match lookupA gname f.rawMap with
      | none =>
        let f1 : File := { f with rawMap := f.rawMap ++ [(gname, emptyGroup)] }
        runLines op (ln + 1) rest
          { f1 with rawMap := updA gname (fun g => { g with comment := g.comment ++ ct }) f1.rawMap }
          (some gname) []
      | some _ =>
        if !op.allowDuplicateGroups then some (ParseOut.fail (ParseError.duplicateGroup ln gname))
        else
          runLines op (ln + 1) rest
            { f with rawMap := updA gname (fun g => { g with comment := g.comment ++ ct }) f.rawMap }
            (some gname) []
    else
      match charIndex line '=' with
      | none => some (ParseOut.fail (ParseError.notAKey ln))
      | some eq =>
        match cur with
        | none => some (ParseOut.fail (ParseError.keyBeforeGroup ln))
        | some gname =>
          match keyValStep op ln gname line eq f ct with
          | none => none
          | some (StepRes.fail e) => some (ParseOut.fail e)
          | some (StepRes.cont f1 ct1) => runLines op (ln + 1) rest f1 cur ct1

/-- Model of `OpenWithOptions`: run the line loop on the logical lines of
the input, starting with an empty file holding the options.  `none` models a
runtime panic inside the loop. -/
def openWithOptions (op : Options) (input : GoStr) : Option ParseOut :=
  runLines op 1 (goLines input) ⟨[], op, [], []⟩ none []

/-- Spec-side accessor: the default (non-localised) value of entry `k` of
group `g` of a successfully parsed file, `none` when the parse failed,
panicked, or the group or entry is absent. -/
def parseVal (op : Options) (input : GoStr) (g k : GoStr) : Option GoStr :=
  match openWithOptions op input with
  | some (ParseOut.ok f) =>
    (lookupA g f.rawMap).bind fun gr => (lookupA k gr.entries).map (·.value)
  | _ => none

/-- Spec-side notion for arrays: un-escape every `\;` pair into a literal
`;`, scanning left to right. -/
def unescapeSemi : GoStr → GoStr
  | '\\' :: ';' :: rest => ';' :: unescapeSemi rest
  | c :: rest => c :: unescapeSemi rest
  | [] => []

/-- Helper for counting unescaped semicolons: `prev` is the character
immediately before the current position. -/
def cuAux (prev : Option Char) : GoStr → Nat
  | [] => 0
  | c :: rest => (if c = ';' ∧ prev ≠ some '\\' then 1 else 0) + cuAux (some c) rest

/-- Spec-side notion: the number of unescaped semicolons of `v`, that is,
semicolons not immediately preceded by a backslash. -/
def countUnescSemi (v : GoStr) : Nat := cuAux none v

/-- Spec-side predicate: every semicolon of `v` is immediately preceded by a
backslash. -/
def allEscB : GoStr → Bool
  | [] => true
  | ';' :: _ => false
  | '\\' :: ';' :: rest => allEscB rest
  | _ :: rest => allEscB rest

/-- The single string the merging loop of `AsArray` fuses a segment list
into when every segment but the last ends with a backslash. -/
def fuseSegs : GoStr → List GoStr → GoStr
  | a, [] => a
  | a, b :: rest => a.dropLast ++ ';' :: fuseSegs b rest

/-- The Entry of the specification's locale-resolution scenario: default
value `Generic`, variant `en_US` mapping to `American`, then variant `en`
mapping to `English`, in that insertion order. -/
def scenarioEntry : Entry :=
  { value := ("Generic").data
    comment := []
    locales := [(⟨("en").data, ("US").data, []⟩, ⟨("American").data, []⟩),
                (⟨("en").data, [], []⟩, ⟨("English").data, []⟩)]
    localeOrder := [⟨("en").data, ("US").data, []⟩, ⟨("en").data, [], []⟩] }

end DeskFile

namespace DeskFile

/-- C2: parsing `[Desktop Entry]` followed by `Name=A` and `Name=B` succeeds
with `AllowDuplicateKeysJoin` set and the entry `Name` of group
`Desktop Entry` holds the concatenation `AB`; with no duplicate option set
the parse fails with a DuplicateKey error carrying line number 3; with both
`AllowDuplicateKeysJoin` and `AllowDuplicateKeysIgnore` set, join takes
precedence and the value is again the concatenation `AB`. -/
theorem c2_duplicate_key_scenario :
    parseVal ⟨none, true, false, false⟩ (("[Desktop Entry]\nName=A\nName=B\n").data)
      (("Desktop Entry").data) (("Name").data) = some (("AB").data) ∧
    openWithOptions defaultOptions (("[Desktop Entry]\nName=A\nName=B\n").data) =
      some (ParseOut.fail (ParseError.duplicateKey 3 (("Name").data))) ∧
    parseVal ⟨none, true, true, false⟩ (("[Desktop Entry]\nName=A\nName=B\n").data)
      (("Desktop Entry").data) (("Name").data) = some (("AB").data) := by
  refine ⟨by decide, by decide, by decide⟩

/-- C5: evaluation of `LocaleFromString` at the failing inputs.  On
`a_b@c` the code keeps the `@` inside the Modifier (`@c` instead of the
claimed `c`), and on `a@b_c` — where `@` precedes `_` — the country slice
`locale[underInd+1 : atInd]` has inverted bounds and the Go code panics,
contradicting the claim that `LocaleFromString` never fails. -/
theorem c5_localeFromString_eval :
    localeFromString (("a_b@c").data) = some ⟨("a").data, ("b").data, ("@c").data⟩ ∧
    localeFromString (("a@b_c").data) = none := by
  refine ⟨by decide, by decide⟩

/-- C8: evaluation of the escape replacer at the failing input.  The
source replaces `\\s` with U+00A0 NO-BREAK SPACE, not the ASCII space the
claim states; the third conjunct shows the disjoint-token behaviour the
claim describes (`\\\\s` renders as a backslash followed by `s`). -/
theorem c8_escapeReplacer_eval :
    valueString (("\\s").data) = [Char.ofNat 160] ∧
    Char.ofNat 160 ≠ ' ' ∧
    valueString (("\\\\s").data) = ("\\s").data := by
  refine ⟨by decide, by decide, by decide⟩

/-- C9: evaluation of `AsArray` at the failing input `a\\;`.  The
trailing-separator trimming leaves the single segment `a\\` ending in a
backslash, and the merge step reads `split[i+1]` past the end of the
slice: an out-of-range panic, modelled as `none` — the claim that the
access stays within bounds is false. -/
theorem c9_asArray_eval : asArray (("a\\;").data) = none := by decide

/-- C10: evaluation of the parser at the failing input.  On the key-value
line `foo]=bar` the key ends with `]` but contains no `[`; the source's
guard tests `strings.Contains(key, "]")` instead of `"["`, so the
locale-extraction branch runs, `strings.Index(key, "[")` is `-1`, and the
slice `key[:-1]` panics, modelled as `none` — the claim that the parser
always returns a File or an error is false. -/
theorem c10_parser_eval :
    openWithOptions defaultOptions (("[G]\nfoo]=bar\n").data) = none := by decide

/-- C1 counterexample: for the Entry of the claim's own scenario
(default `Generic`, variant `en_US` then variant `en` in that insertion
order) the query `en_GB` yields `American`, not the `English` the claim
asserts: the remembered tier-1 candidate is `en_US`, the first variant in
order whose Language matches, and no variant matches Country `GB`. -/
theorem c1_enGB_counterexample :
    valueAtLocale scenarioEntry ⟨("en").data, ("GB").data, []⟩ = ("American").data ∧
    ("American").data ≠ ("English").data := by
  refine ⟨by decide, by decide⟩

/-- C3 counterexample: `a\\;b` is not an array, and `AsArray` on it
returns the single element `a;b`, which is not the whole value `a\\;b` —
the escaped separator has been un-escaped. -/
theorem c3_whole_value_counterexample :
    isArray (("a\\;b").data) = false ∧
    asArray (("a\\;b").data) = some [("a;b").data] ∧
    ("a;b").data ≠ ("a\\;b").data := by
  refine ⟨by decide, by decide, by decide⟩

/-- C4 counterexample: in `\\;;` the number of unescaped semicolons (one)
does not exceed the number of escaped `\\;` sequences (one), yet `IsArray`
returns true — the source compares the escaped count against the total
semicolon count, not against the unescaped count. -/
theorem c4_exceeds_counterexample :
    isArray (("\\;;").data) = true ∧
    countUnescSemi (("\\;;").data) = 1 ∧
    countEscSemiGo (("\\;;").data) = 1 ∧
    ¬ countEscSemiGo (("\\;;").data) < countUnescSemi (("\\;;").data) := by
  refine ⟨by decide, by decide, by decide, by decide⟩

/-- C6 counterexample: `a_B@C` parses to the Locale with Language `a`,
Country `B`, Modifier `@C`; rendering gives `a_B@@C`, which re-parses to
Modifier `@@C`, a different Locale — the round trip is not stable. -/
theorem c6_roundtrip_counterexample :
    localeFromString (("a_B@C").data) = some ⟨("a").data, ("B").data, ("@C").data⟩ ∧
    localeFromString (localeString ⟨("a").data, ("B").data, ("@C").data⟩) ≠
      some ⟨("a").data, ("B").data, ("@C").data⟩ := by
  refine ⟨by decide, by decide⟩

/-- C7 counterexample: adding a new group to an empty File registers it in
`rawMap` but appends nothing to `groupOrder`, so the registered group never
appears in the order sequence. -/
theorem c7_groupOrder_counterexample :
    (addGroup ⟨[], defaultOptions, [], []⟩ (("G").data)).1.groupOrder = [] ∧
    lookupA (("G").data) (addGroup ⟨[], defaultOptions, [], []⟩ (("G").data)).1.rawMap =
      some emptyGroup := by
  refine ⟨by decide, by decide⟩

end DeskFile

namespace DeskFile

/-- Helper: the previous-character state of the unescaped-semicolon count only
matters through whether it is a backslash. -/
theorem cuAux_prev_ne (c : Char) (h : c ≠ '\\') (v : GoStr) :
    cuAux (some c) v = cuAux none v := by
  cases v with
  | nil => rfl
  | cons d rest =>
    simp only [cuAux]
    congr 1
    by_cases hd : d = ';'
    · simp [hd, h]
    · simp [hd]

/-- Helper: after a backslash that begins no escaped pair, the count state is
irrelevant. -/
theorem cuAux_backslash (v : GoStr) (h : v.head? ≠ some ';') :
    cuAux (some '\\') v = cuAux none v := by
  cases v with
  | nil => rfl
  | cons d rest =>
    simp only [List.head?] at h
    simp only [cuAux]
    congr 1
    have hd : d ≠ ';' := by intro he; exact h (by rw [he])
    simp [hd]

/-- Helper: unfolding of the Go pattern count on a head that starts no match. -/
theorem countEscSemiGo_cons (c : Char) (rest : GoStr)
    (h : ¬(c = '\\' ∧ rest.head? = some ';')) :
    countEscSemiGo (c :: rest) = countEscSemiGo rest := by
  rw [countEscSemiGo.eq_def]
  split
  · rename_i rest1 heq
    simp only [List.cons.injEq] at heq
    exact absurd ⟨heq.1, by rw [heq.2]; rfl⟩ h
  · rename_i a as heq
    rw [List.cons.injEq] at heq
    rw [heq.2]
  · simp at *

/-- Every semicolon is either the semicolon of an escaped pair or unescaped:
the two counts add up to the total semicolon count. -/
theorem countEsc_add_unesc (v : GoStr) :
    countEscSemiGo v + countUnescSemi v = countSemiGo v := by
  induction v using countEscSemiGo.induct with
  | case1 rest ih =>
    have h1 : countUnescSemi ('\\' :: ';' :: rest) = countUnescSemi rest := by
      simp only [countUnescSemi, cuAux]
      rw [if_neg (by decide), if_neg (by decide), cuAux_prev_ne (';') (by decide)]
      omega
    have h2 : countSemiGo ('\\' :: ';' :: rest) = 1 + countSemiGo rest := by
      simp [countSemiGo]
    have h3 : countEscSemiGo ('\\' :: ';' :: rest) = 1 + countEscSemiGo rest := rfl
    omega
  | case2 c rest hmiss ih =>
    have hne : ¬(c = '\\' ∧ rest.head? = some ';') := by
      rintro ⟨h1, h2⟩
      cases rest with
      | nil => simp at h2
      | cons d r2 =>
        simp only [List.head?, Option.some.injEq] at h2
        exact hmiss r2 h1 (by rw [h2])
    have h3 : countEscSemiGo (c :: rest) = countEscSemiGo rest := countEscSemiGo_cons c rest hne
    by_cases hc : c = ';'
    · have h1 : countUnescSemi (c :: rest) = 1 + countUnescSemi rest := by
        simp only [countUnescSemi, cuAux]
        rw [if_pos (by simp [hc]), cuAux_prev_ne c (by rw [hc]; decide)]
      have h2 : countSemiGo (c :: rest) = 1 + countSemiGo rest := by
        simp only [countSemiGo]
        rw [if_pos hc]
      omega
    · have h2 : countSemiGo (c :: rest) = countSemiGo rest := by
        simp only [countSemiGo]
        rw [if_neg hc]
        omega
      have h1 : countUnescSemi (c :: rest) = countUnescSemi rest := by
        simp only [countUnescSemi, cuAux]
        rw [if_neg (by simp [hc])]
        by_cases hb : c = '\\'
        · rw [hb, cuAux_backslash]
          · omega
          · intro hh
            rcases rest with _ | ⟨d, r2⟩
            · simp at hh
            · simp only [List.head?, Option.some.injEq] at hh
              exact hmiss r2 hb (by rw [hh])
        · rw [cuAux_prev_ne c hb]
          omega
      omega
  | case3 => rfl

end DeskFile

namespace DeskFile

/-- C4 (amended): `IsArray` is true iff the value contains at least one
unescaped semicolon — equivalently the total semicolon count exceeds the
escaped count; in particular a semicolon-free value, and a value in which
every semicolon is escaped, is not an array. -/
theorem c4_isArray_amended :
    (∀ v, isArray v = true ↔ 0 < countUnescSemi v) ∧
    (∀ v, countSemiGo v = 0 → isArray v = false) ∧
    (∀ v, countUnescSemi v = 0 → isArray v = false) := by
  refine ⟨fun v => ?_, fun v h => ?_, fun v h => ?_⟩ <;>
    have hs := countEsc_add_unesc v
  · simp only [isArray, decide_eq_true_eq]
    omega
  · simp only [isArray, decide_eq_false_iff_not]
    omega
  · simp only [isArray, decide_eq_false_iff_not]
    omega

/-- C4 witness: the amended theorem applied at the semicolon-free value `ab`. -/
theorem c4_isArray_amended_witness :
    countSemiGo (("ab").data) = 0 ∧ isArray (("ab").data) = false :=
  ⟨by decide, c4_isArray_amended.2.1 (("ab").data) (by decide)⟩

end DeskFile

namespace DeskFile

/-- Helper: association-list lookup skips a binding with a different key. -/
theorem lookupA_cons_ne {V : Type} {k k1 : GoStr} (v1 : V) (rest : List (GoStr × V))
    (hp : k1 ≠ k) : lookupA k ((k1, v1) :: rest) = lookupA k rest := by
  unfold lookupA
  rw [List.find?_cons_of_neg]
  simp [hp]

/-- Helper: association-list lookup finds a binding with the matching key. -/
theorem lookupA_cons_eq {V : Type} {k : GoStr} (v1 : V) (rest : List (GoStr × V)) :
    lookupA k ((k, v1) :: rest) = some v1 := by
  unfold lookupA
  rw [List.find?_cons_of_pos]
  · rfl
  · simp

/-- Helper: appending a fresh binding to an association list in which the key
is absent makes lookup of that key return the new binding. -/
theorem lookupA_append_right {V : Type} (k : GoStr) (v : V) (l : List (GoStr × V))
    (h : lookupA k l = none) : lookupA k (l ++ [(k, v)]) = some v := by
  induction l with
  | nil => simp [lookupA, List.find?]
  | cons p rest ih =>
    rcases p with ⟨k1, v1⟩
    by_cases hp : k1 = k
    · rw [hp, lookupA_cons_eq] at h
      exact absurd h (by simp)
    · rw [List.cons_append, lookupA_cons_ne v1 _ hp]
      rw [lookupA_cons_ne v1 _ hp] at h
      exact ih h

/-- C7 (amended): `AddGroup` and `AddEntry` are idempotent insert-or-fetch
operations; a present key returns the stored element and changes nothing; a
new entry key is registered and appended to `entryOrder` exactly once, so
every registered entry appears in the order sequence; but `AddGroup` only
registers the new group in the map and never appends its name to
`groupOrder`. -/
theorem c7_addGroup_addEntry_amended :
    (∀ f name g0, lookupA name f.rawMap = some g0 → addGroup f name = (f, g0)) ∧
    (∀ f name, lookupA name f.rawMap = none →
      (addGroup f name).1.rawMap = f.rawMap ++ [(name, emptyGroup)] ∧
      (addGroup f name).1.groupOrder = f.groupOrder ∧
      (addGroup f name).2 = emptyGroup ∧
      lookupA name (addGroup f name).1.rawMap = some emptyGroup) ∧
    (∀ g key e0, lookupA key g.entries = some e0 → addEntry g key = (g, e0)) ∧
    (∀ g key, lookupA key g.entries = none →
      (addEntry g key).1.entries = g.entries ++ [(key, emptyEntry)] ∧
      (addEntry g key).1.entryOrder = g.entryOrder ++ [key] ∧
      (addEntry g key).2 = emptyEntry ∧
      lookupA key (addEntry g key).1.entries = some emptyEntry) := by
  refine ⟨fun f name g0 h => ?_, fun f name h => ?_, fun g key e0 h => ?_, fun g key h => ?_⟩
  · simp [addGroup, h]
  · simp [addGroup, h, lookupA_append_right]
  · simp [addEntry, h]
  · simp [addEntry, h, lookupA_append_right]

/-- C7 witness: the amended theorem applied to an empty File and an empty
Group. -/
theorem c7_addGroup_addEntry_amended_witness :
    lookupA (("G").data) (⟨[], defaultOptions, [], []⟩ : File).rawMap = none ∧
    (addGroup ⟨[], defaultOptions, [], []⟩ (("G").data)).1.groupOrder = [] ∧
    lookupA (("K").data) (emptyGroup).entries = none ∧
    (addEntry emptyGroup (("K").data)).1.entryOrder = [("K").data] := by
  refine ⟨by decide, ?_, by decide, ?_⟩
  · have h := c7_addGroup_addEntry_amended.2.1 ⟨[], defaultOptions, [], []⟩ (("G").data) (by decide)
    rw [h.2.1]
  · have h := c7_addGroup_addEntry_amended.2.2.2 emptyGroup (("K").data) (by decide)
    rw [h.2.1]
    decide

end DeskFile

namespace DeskFile

/-- Helper: in the state where both a Language match and a Language+Country
match have been remembered, the loop returns the first exact match if any,
else the remembered candidate. -/
theorem valGo_tt (l : Locale) (c : GoStr) (lvs : List (Locale × LocaleValue)) :
    valGo l lvs (some c) true true =
      some (((findT3 l lvs).map (fun p => p.2.value)).getD c) := by
  induction lvs with
  | nil => simp [valGo, findT3]
  | cons p rest ih =>
    rcases p with ⟨i, lv⟩
    simp only [findT3] at ih ⊢
    by_cases hL : l.language = i.language
    · by_cases hC : l.country = i.country
      · by_cases hM : l.modifier = i.modifier
        · simp only [valGo, if_neg (not_not_intro hL), if_neg (not_not_intro hC), if_pos hM]
          rw [List.find?_cons_of_pos _ (by simp [hL, hC, hM])]
          simp
        · simp only [valGo, if_neg (not_not_intro hL), if_neg (not_not_intro hC), if_neg hM]
          rw [List.find?_cons_of_neg _ (by simp [hM])]
          exact ih
      · simp only [valGo, if_neg (not_not_intro hL), if_pos hC]
        rw [List.find?_cons_of_neg _ (by simp [hC])]
        exact ih
    · simp only [valGo, if_pos hL]
      rw [List.find?_cons_of_neg _ (by simp [hL])]
      exact ih

/-- Helper: in the state where only a Language match has been remembered, the
loop returns the first exact match, else the first Language+Country match,
else the remembered candidate. -/
theorem valGo_tf (l : Locale) (c : GoStr) (lvs : List (Locale × LocaleValue)) :
    valGo l lvs (some c) true false =
      some (((findT3 l lvs).map (fun p => p.2.value)).getD
            (((findT2 l lvs).map (fun p => p.2.value)).getD c)) := by
  induction lvs with
  | nil => simp [valGo, findT3, findT2]
  | cons p rest ih =>
    rcases p with ⟨i, lv⟩
    simp only [findT3, findT2] at ih ⊢
    by_cases hL : l.language = i.language
    · by_cases hC : l.country = i.country
      · by_cases hM : l.modifier = i.modifier
        · simp only [valGo, if_neg (not_not_intro hL), if_neg (not_not_intro hC), if_pos hM]
          rw [List.find?_cons_of_pos _ (by simp [hL, hC, hM])]
          simp
        · simp only [valGo, if_neg (not_not_intro hL), if_neg (not_not_intro hC), if_neg hM]
          rw [List.find?_cons_of_neg _ (by simp [hM]),
              List.find?_cons_of_pos _ (by simp [hL, hC])]
          have h := valGo_tt l lv.value rest
          simp only [findT3] at h
          exact h.trans (by simp)
      · simp only [valGo, if_neg (not_not_intro hL), if_pos hC]
        rw [List.find?_cons_of_neg _ (by simp [hC]),
            List.find?_cons_of_neg _ (by simp [hC])]
        exact ih
    · simp only [valGo, if_pos hL]
      rw [List.find?_cons_of_neg _ (by simp [hL]),
          List.find?_cons_of_neg _ (by simp [hL])]
      exact ih

/-- Helper: from the initial state, the loop returns the first exact match,
else the first Language+Country match, else the first Language match, else
nothing. -/
theorem valGo_ff (l : Locale) (lvs : List (Locale × LocaleValue)) :
    valGo l lvs none false false =
      ((findT3 l lvs).map (fun p => p.2.value)).or
        (((findT2 l lvs).map (fun p => p.2.value)).or
          ((findT1 l lvs).map (fun p => p.2.value))) := by
  induction lvs with
  | nil => simp [valGo, findT3, findT2, findT1]
  | cons p rest ih =>
    rcases p with ⟨i, lv⟩
    simp only [findT3, findT2, findT1] at ih ⊢
    by_cases hL : l.language = i.language
    · by_cases hC : l.country = i.country
      · by_cases hM : l.modifier = i.modifier
        · simp only [valGo, if_neg (not_not_intro hL), if_neg (not_not_intro hC), if_pos hM]
          rw [List.find?_cons_of_pos _ (by simp [hL, hC, hM])]
          simp
        · simp only [valGo, if_neg (not_not_intro hL), if_neg (not_not_intro hC), if_neg hM]
          rw [List.find?_cons_of_neg _ (by simp [hM]),
              List.find?_cons_of_pos _ (by simp [hL, hC])]
          have h := valGo_tt l lv.value rest
          simp only [findT3] at h
          refine h.trans ?_
          cases hf : List.find? (fun p =>
              decide (l.language = p.1.language ∧ l.country = p.1.country ∧
                l.modifier = p.1.modifier)) rest <;> simp
      · simp only [valGo, if_neg (not_not_intro hL), if_pos hC]
        rw [List.find?_cons_of_neg _ (by simp [hC]),
            List.find?_cons_of_neg _ (by simp [hC]),
            List.find?_cons_of_pos _ (by simp [hL])]
        have h := valGo_tf l lv.value rest
        simp only [findT3, findT2] at h
        refine h.trans ?_
        cases hf3 : List.find? (fun p =>
            decide (l.language = p.1.language ∧ l.country = p.1.country ∧
              l.modifier = p.1.modifier)) rest <;>
          cases hf2 : List.find? (fun p =>
              decide (l.language = p.1.language ∧ l.country = p.1.country)) rest <;>
            simp
    · simp only [valGo, if_pos hL]
      rw [List.find?_cons_of_neg _ (by simp [hL]),
          List.find?_cons_of_neg _ (by simp [hL]),
          List.find?_cons_of_neg _ (by simp [hL])]
      exact ih

/-- Helper: the loop of `ValueAtLocale` computes exactly the three-tier rule. -/
theorem valueAtLocale_eq_resolveSpec (e : Entry) (l : Locale) :
    valueAtLocale e l = resolveSpec e l := by
  unfold valueAtLocale resolveSpec
  rw [valGo_ff]
  cases h3 : findT3 l e.locales <;> cases h2 : findT2 l e.locales <;>
    cases h1 : findT1 l e.locales <;> simp

end DeskFile

namespace DeskFile

/-- C1 (amended): `ValueAtLocale` follows the three-tier rule — an exact
Language+Country+Modifier match is returned immediately; otherwise the
result is the first variant (in order) whose Language and Country both
match, else the first variant whose Language matches, else the default
Value — and on the scenario Entry (default `Generic`, variants
`en_US` then `en`): querying `en_US` with modifier `x` returns `American`,
querying `fr` returns `Generic`, and querying `en_GB` returns `American`
(not `English`): the remembered candidate is `en_US`, the first variant in
insertion order whose Language matches, and no variant upgrades it. -/
theorem c1_three_tier_amended :
    (∀ e l, valueAtLocale e l = resolveSpec e l) ∧
    valueAtLocale scenarioEntry ⟨("en").data, ("US").data, ("x").data⟩ = ("American").data ∧
    valueAtLocale scenarioEntry ⟨("en").data, ("GB").data, []⟩ = ("American").data ∧
    valueAtLocale scenarioEntry ⟨("fr").data, [], []⟩ = ("Generic").data :=
  ⟨valueAtLocale_eq_resolveSpec, by decide, by decide, by decide⟩

end DeskFile

namespace DeskFile

/-- Helper: `charIndex` finds nothing exactly when the character is absent. -/
theorem charIndex_eq_none {s : GoStr} {c : Char} : charIndex s c = none ↔ c ∉ s := by
  induction s with
  | nil => simp [charIndex]
  | cons a rest ih =>
    simp only [charIndex]
    by_cases ha : a = c
    · simp [ha]
    · simp only [if_neg ha, Option.map_eq_none', ih, List.mem_cons]
      constructor
      · rintro hn (hca | hm)
        · exact ha hca.symm
        · exact hn hm
      · intro hn hm
        exact hn (Or.inr hm)

/-- Helper: a found index means the character occurs. -/
theorem mem_of_charIndex {s : GoStr} {c : Char} {n : Nat}
    (h : charIndex s c = some n) : c ∈ s := by
  by_contra hcon
  rw [charIndex_eq_none.mpr hcon] at h
  exact Option.noConfusion h

/-- Helper: the first occurrence of `c` after a `c`-free block is right after
the block. -/
theorem charIndex_append_self (w z : GoStr) (c : Char) (h : c ∉ w) :
    charIndex (w ++ c :: z) c = some w.length := by
  induction w with
  | nil => simp [charIndex]
  | cons a rest ih =>
    have ha : a ≠ c := by
      rintro rfl
      exact h (by simp)
    simp only [List.cons_append, charIndex, if_neg ha, List.append_eq]
    rw [ih (fun hm => h (List.mem_cons_of_mem a hm))]
    rfl

/-- Helper: nothing before the first occurrence is the character itself. -/
theorem not_mem_take_charIndex {s : GoStr} {c : Char} {n : Nat}
    (h : charIndex s c = some n) : c ∉ s.take n := by
  induction s generalizing n with
  | nil => simp [charIndex] at h
  | cons a rest ih =>
    by_cases ha : a = c
    · simp only [charIndex, if_pos ha, Option.some.injEq] at h
      subst h
      simp
    · simp only [charIndex, if_neg ha] at h
      cases hr : charIndex rest c with
      | none => rw [hr] at h; simp at h
      | some m =>
        rw [hr] at h
        simp only [Option.map_some', Option.some.injEq] at h
        rw [← h]
        simp only [List.take_succ_cons, List.mem_cons]
        rintro (hca | hmem)
        · exact ha hca.symm
        · exact ih hr hmem

/-- Helper: dropping past a `c`-free block and the following character. -/
theorem drop_app_succ (w z : GoStr) (c : Char) :
    (w ++ c :: z).drop (w.length + 1) = z := by
  induction w with
  | nil => rfl
  | cons a rest ih => simp [ih]

end DeskFile


namespace DeskFile

/-- C6 (amended): for every string whose parse succeeds with non-empty
Language, provided the string does not contain both `_` and `@` and the
parsed components are already case-normalised (Language lowercase, Country
and Modifier uppercase), re-parsing the rendered form yields the same
Locale. -/
theorem c6_roundtrip_amended :
    ∀ s loc, localeFromString s = some loc → loc.language ≠ [] →
      ¬(('_' ∈ s) ∧ ('@' ∈ s)) →
      toLowerStr loc.language = loc.language →
      toUpperStr loc.country = loc.country →
      toUpperStr loc.modifier = loc.modifier →
      localeFromString (localeString loc) = some loc := by
  intro s loc h hne hboth hl hc hm
  cases hU : charIndex s '_' with
  | some u =>
    cases hA : charIndex s '@' with
    | some a => exact absurd ⟨mem_of_charIndex hU, mem_of_charIndex hA⟩ hboth
    | none =>
      have hAm : '@' ∉ s := charIndex_eq_none.mp hA
      simp only [localeFromString, hU, hA] at h
      have hL1 : charIndex (s.take u) '_' = none :=
        charIndex_eq_none.mpr (not_mem_take_charIndex hU)
      have hL2 : charIndex (s.take u) '@' = none :=
        charIndex_eq_none.mpr (fun hmem => hAm (List.take_subset u s hmem))
      cases hD : charIndex (s.drop (u + 1)) '.' with
      | none =>
        rw [hD] at h
        simp only [Option.some.injEq] at h
        subst h
        by_cases hc0 : s.drop (u + 1) = []
        · have hr : localeString ⟨s.take u, s.drop (u + 1), []⟩ = s.take u := by
            simp [localeString, hl, hc0]
          rw [hr]
          simp [localeFromString, hL1, hL2, hc0, charIndex]
        · have hr : localeString ⟨s.take u, s.drop (u + 1), []⟩ =
              s.take u ++ '_' :: s.drop (u + 1) := by
            have hcp : toUpperStr (s.drop (u + 1)) = s.drop (u + 1) := hc
            simp [localeString, hl, hc0, hcp]
          rw [hr]
          have h1 : charIndex (s.take u ++ '_' :: s.drop (u + 1)) '_' =
              some (s.take u).length :=
            charIndex_append_self _ _ _ (not_mem_take_charIndex hU)
          have h2 : charIndex (s.take u ++ '_' :: s.drop (u + 1)) '@' = none := by
            refine charIndex_eq_none.mpr (fun hmem => ?_)
            rcases List.mem_append.mp hmem with hw | hz
            · exact hAm (List.take_subset u s hw)
            · rcases List.mem_cons.mp hz with he | hz2
              · exact absurd he.symm (by decide)
              · exact hAm (List.drop_subset (u + 1) s hz2)
          simp only [localeFromString, h1, h2, List.take_left, drop_app_succ, hD]
      | some d =>
        rw [hD] at h
        simp only [Option.some.injEq] at h
        subst h
        have h3 : charIndex ((s.drop (u + 1)).take d) '.' = none :=
          charIndex_eq_none.mpr (not_mem_take_charIndex hD)
        by_cases hc0 : (s.drop (u + 1)).take d = []
        · have hr : localeString ⟨s.take u, (s.drop (u + 1)).take d, []⟩ = s.take u := by
            simp [localeString, hl, hc0]
          rw [hr]
          simp [localeFromString, hL1, hL2, hc0, charIndex]
        · have hr : localeString ⟨s.take u, (s.drop (u + 1)).take d, []⟩ =
              s.take u ++ '_' :: (s.drop (u + 1)).take d := by
            have hcp : toUpperStr ((s.drop (u + 1)).take d) = (s.drop (u + 1)).take d := hc
            simp [localeString, hl, hc0, hcp]
          rw [hr]
          have h1 : charIndex (s.take u ++ '_' :: (s.drop (u + 1)).take d) '_' =
              some (s.take u).length :=
            charIndex_append_self _ _ _ (not_mem_take_charIndex hU)
          have h2 : charIndex (s.take u ++ '_' :: (s.drop (u + 1)).take d) '@' = none := by
            refine charIndex_eq_none.mpr (fun hmem => ?_)
            rcases List.mem_append.mp hmem with hw | hz
            · exact hAm (List.take_subset u s hw)
            · rcases List.mem_cons.mp hz with he | hz2
              · exact absurd he.symm (by decide)
              · exact hAm (List.drop_subset (u + 1) s (List.take_subset d _ hz2))
          simp only [localeFromString, h1, h2, List.take_left, drop_app_succ, h3]
  | none =>
    have hUm : '_' ∉ s := charIndex_eq_none.mp hU
    cases hA : charIndex s '@' with
    | none =>
      simp only [localeFromString, hU, hA, charIndex, Option.some.injEq] at h
      subst h
      have hr : localeString ⟨s, [], []⟩ = s := by
        simp [localeString, hl]
      rw [hr]
      simp [localeFromString, hU, hA, charIndex]
    | some a =>
      simp only [localeFromString, hU, hA, charIndex, Option.some.injEq] at h
      subst h
      have hAt : '@' ∉ s.take a := not_mem_take_charIndex hA
      have hL1 : charIndex (s.take a) '_' = none :=
        charIndex_eq_none.mpr (fun hmem => hUm (List.take_subset a s hmem))
      have hL2 : charIndex (s.take a) '@' = none := charIndex_eq_none.mpr hAt
      by_cases hm0 : s.drop (a + 1) = []
      · have hr : localeString ⟨s.take a, [], s.drop (a + 1)⟩ = s.take a := by
          simp [localeString, hl, hm0]
        rw [hr]
        simp [localeFromString, hL1, hL2, hm0, charIndex]
      · have hr : localeString ⟨s.take a, [], s.drop (a + 1)⟩ =
            s.take a ++ '@' :: s.drop (a + 1) := by
          have hmp : toUpperStr (s.drop (a + 1)) = s.drop (a + 1) := hm
          simp [localeString, hl, hm0, hmp]
        rw [hr]
        have h1 : charIndex (s.take a ++ '@' :: s.drop (a + 1)) '_' = none := by
          refine charIndex_eq_none.mpr (fun hmem => ?_)
          rcases List.mem_append.mp hmem with hw | hz
          · exact hUm (List.take_subset a s hw)
          · rcases List.mem_cons.mp hz with he | hz2
            · exact absurd he.symm (by decide)
            · exact hUm (List.drop_subset (a + 1) s hz2)
        have h2 : charIndex (s.take a ++ '@' :: s.drop (a + 1)) '@' =
            some (s.take a).length :=
          charIndex_append_self _ _ _ hAt
        simp only [localeFromString, h1, h2, List.take_left, drop_app_succ, charIndex]

end DeskFile

namespace DeskFile

/-- C6 witness: the amended round-trip theorem applied at `en_US`. -/
theorem c6_roundtrip_amended_witness :
    localeFromString (("en_US").data) = some ⟨("en").data, ("US").data, []⟩ ∧
    localeFromString (localeString ⟨("en").data, ("US").data, []⟩) =
      some ⟨("en").data, ("US").data, []⟩ := by
  refine ⟨by decide, ?_⟩
  exact c6_roundtrip_amended (("en_US").data) ⟨("en").data, ("US").data, []⟩
    (by decide) (by decide) (by decide) (by decide) (by decide) (by decide)

end DeskFile

namespace DeskFile

/-- Helper: no unescaped semicolons is the same as every semicolon escaped. -/
theorem unesc_zero_iff_allEsc (v : GoStr) :
    countUnescSemi v = 0 ↔ allEscB v = true := by
  induction v using allEscB.induct with
  | case1 => simp [countUnescSemi, cuAux, allEscB]
  | case2 tail =>
    simp [countUnescSemi, cuAux, allEscB]
  | case3 rest ih =>
    have h1 : countUnescSemi ('\\' :: ';' :: rest) = countUnescSemi rest := by
      simp only [countUnescSemi, cuAux]
      rw [if_neg (by decide), if_neg (by decide), cuAux_prev_ne (';') (by decide)]
      omega
    rw [h1, ih]
    constructor
    · intro h
      rw [allEscB]
      exact h
    · intro h
      rw [allEscB] at h
      exact h
  | case4 c rest h1 h2 ih =>
    have hc : ¬ c = ';' := fun he => h1 he
    have hcu : countUnescSemi (c :: rest) = countUnescSemi rest := by
      simp only [countUnescSemi, cuAux]
      rw [if_neg (by simp [hc])]
      by_cases hb : c = '\\'
      · rw [hb, cuAux_backslash]
        · omega
        · intro hh
          rcases rest with _ | ⟨d, r2⟩
          · simp at hh
          · simp only [List.head?, Option.some.injEq] at hh
            exact h2 r2 hb (by rw [hh])
      · rw [cuAux_prev_ne c hb]
        omega
    have hae : allEscB (c :: rest) = allEscB rest := by
      rw [allEscB.eq_def]
      split
      · rename_i heq
        exact absurd heq (by simp)
      · rename_i tail heq
        simp only [List.cons.injEq] at heq
        exact absurd heq.1 hc
      · rename_i rest1 heq
        simp only [List.cons.injEq] at heq
        exact absurd heq.2 (fun hr => h2 rest1 heq.1 hr)
      · rename_i head1 rest1 hna hnb heq
        simp only [List.cons.injEq] at heq
        rw [heq.2]
    rw [hcu, hae, ih]

/-- Helper: `IsArray` is false exactly when the value has no unescaped
semicolon. -/
theorem isArray_false_iff (v : GoStr) :
    isArray v = false ↔ countUnescSemi v = 0 := by
  have hs := countEsc_add_unesc v
  simp only [isArray, decide_eq_false_iff_not]
  omega

/-- Helper: splitting never yields an empty segment list. -/
theorem splitChar_ne_nil (c : Char) (v : GoStr) : splitChar c v ≠ [] := by
  cases v with
  | nil => simp [splitChar]
  | cons a rest =>
    simp only [splitChar]
    by_cases ha : a = c
    · simp [ha]
    · rw [if_neg ha]
      cases hs : splitChar c rest with
      | nil => simp
      | cons x xs => simp

/-- Helper: the number of segments is one more than the semicolon count. -/
theorem splitSemi_length (v : GoStr) :
    (splitChar (';') v).length = countSemiGo v + 1 := by
  induction v with
  | nil => simp [splitChar, countSemiGo]
  | cons a rest ih =>
    simp only [splitChar, countSemiGo]
    by_cases ha : a = ';'
    · rw [if_pos ha, if_pos ha]
      simp only [List.length_cons, ih]
      omega
    · rw [if_neg ha, if_neg ha]
      cases hs : splitChar (';') rest with
      | nil => exact absurd hs (splitChar_ne_nil _ _)
      | cons x xs =>
        rw [hs] at ih
        simp only [List.length_cons] at ih ⊢
        omega

/-- Helper: a list ending in a given character contains it. -/
theorem mem_of_endsWith {v : GoStr} {c : Char} (h : endsWithChar v c = true) : c ∈ v := by
  induction v with
  | nil => simp [endsWithChar] at h
  | cons a rest ih =>
    cases hr : rest with
    | nil =>
      subst hr
      have hac : a = c := by simpa [endsWithChar] using h
      simp [hac]
    | cons b t =>
      subst hr
      apply List.mem_cons_of_mem
      apply ih
      simpa [endsWithChar, List.getLast?_cons_cons] using h

/-- Helper: a semicolon somewhere makes the semicolon count positive. -/
theorem countSemi_pos {v : GoStr} (h : (';') ∈ v) : 0 < countSemiGo v := by
  induction v with
  | nil => simp at h
  | cons a rest ih =>
    simp only [countSemiGo]
    rcases List.mem_cons.mp h with rfl | hm
    · simp
    · have := ih hm
      omega

end DeskFile

namespace DeskFile

/-- Helper: unfolding of `allEscB` on a head that starts no pattern. -/
theorem allEscB_cons_eq {c : Char} {rest : GoStr} (h1 : ¬ c = ';')
    (h2 : ∀ rest1, c = '\\' → rest = ';' :: rest1 → False) :
    allEscB (c :: rest) = allEscB rest := by
  rw [allEscB.eq_def]
  split
  · rename_i heq
    exact absurd heq (by simp)
  · rename_i tail heq
    simp only [List.cons.injEq] at heq
    exact absurd heq.1 h1
  · rename_i rest1 heq
    simp only [List.cons.injEq] at heq
    exact absurd heq.2 (fun hr => h2 rest1 heq.1 hr)
  · rename_i head1 rest1 hna hnb heq
    simp only [List.cons.injEq] at heq
    rw [heq.2]

/-- Helper: the suffix character of a longer list ignores the head. -/
theorem endsWith_cons {c ch : Char} {s : GoStr} (h : s ≠ []) :
    endsWithChar (c :: s) ch = endsWithChar s ch := by
  cases s with
  | nil => exact absurd rfl h
  | cons b t => simp [endsWithChar, List.getLast?_cons_cons]

/-- Helper: when every semicolon is escaped, every split segment except the
last is non-empty and ends with a backslash. -/
theorem split_allEsc {v : GoStr} (h : allEscB v = true) :
    ∀ s ∈ (splitChar (';') v).dropLast, s ≠ [] ∧ endsWithChar s '\\' = true := by
  induction v using allEscB.induct with
  | case1 => simp [splitChar]
  | case2 tail => simp [allEscB] at h
  | case3 rest ih =>
    have hrest : allEscB rest = true := by
      simpa [allEscB] using h
    have hsplit : splitChar (';') ('\\' :: ';' :: rest) = ['\\'] :: splitChar (';') rest := by
      simp [splitChar]
    rw [hsplit]
    cases hs : splitChar (';') rest with
    | nil => exact absurd hs (splitChar_ne_nil _ _)
    | cons x xs =>
      intro s hmem
      simp only [List.dropLast] at hmem
      rcases List.mem_cons.mp hmem with rfl | hmem2
      · exact ⟨by simp, by decide⟩
      · rw [hs] at ih
        exact ih hrest s hmem2
  | case4 c rest h1 h2 ih =>
    have hrest : allEscB rest = true := by
      rw [allEscB_cons_eq (fun he => h1 he) h2] at h
      exact h
    have hheadr : ∀ r1, rest ≠ ';' :: r1 := by
      intro r1 hr
      rw [hr] at hrest
      simp [allEscB] at hrest
    cases hrc : rest with
    | nil =>
      subst hrc
      simp [splitChar, if_neg (fun he => h1 he)]
    | cons d r2 =>
      have hd : d ≠ ';' := by
        intro hd
        exact hheadr r2 (by rw [hrc, hd])
      have hsplit : ∀ x xs, splitChar (';') rest = x :: xs →
          splitChar (';') (c :: rest) = (c :: x) :: xs := by
        intro x xs hx
        simp only [splitChar, if_neg (fun he => h1 he)]
        rw [hx]
      have hxne : ∀ x xs, splitChar (';') rest = x :: xs → x ≠ [] := by
        intro x xs hx
        rw [hrc] at hx
        simp only [splitChar, if_neg hd] at hx
        cases hs2 : splitChar (';') r2 with
        | nil => exact absurd hs2 (splitChar_ne_nil _ _)
        | cons y ys =>
          rw [hs2] at hx
          simp only [List.cons.injEq] at hx
          rw [← hx.1]
          simp
      cases hs : splitChar (';') rest with
      | nil => exact absurd hs (splitChar_ne_nil _ _)
      | cons x xs =>
        rw [← hrc, hsplit x xs hs]
        cases hxs : xs with
        | nil => simp
        | cons x2 xs2 =>
          intro s hmem
          simp only [List.dropLast] at hmem
          rcases List.mem_cons.mp hmem with rfl | hmem2
          · have hxne2 : x ≠ [] := hxne x xs hs
            have hih := ih hrest
            rw [hs, hxs] at hih
            have hx : x ≠ [] ∧ endsWithChar x '\\' = true := by
              apply hih
              simp [List.dropLast]
            exact ⟨by simp, by rw [endsWith_cons hxne2]; exact hx.2⟩
          · have hih := ih hrest
            rw [hs, hxs] at hih
            apply hih
            simp only [List.dropLast, List.mem_cons]
            right
            exact hmem2

end DeskFile

namespace DeskFile

/-- Helper: unfolding of `unescapeSemi` on a head that starts no pair. -/
theorem unescapeSemi_cons {c : Char} {rest : GoStr}
    (h2 : ∀ rest1, c = '\\' → rest = ';' :: rest1 → False) :
    unescapeSemi (c :: rest) = c :: unescapeSemi rest := by
  rw [unescapeSemi.eq_def]
  split
  · rename_i rest1 heq
    simp only [List.cons.injEq] at heq
    exact absurd heq.2 (fun hr => h2 rest1 heq.1 hr)
  · rename_i head1 rest1 hna heq
    simp only [List.cons.injEq] at heq
    rw [heq.1, heq.2]
  · rename_i heq
    exact absurd heq (by simp)

/-- Helper: the suffix character of an append ignores a non-final block. -/
theorem endsWith_append_cons (w : GoStr) (c ch : Char) (z : GoStr) :
    endsWithChar (w ++ c :: z) ch = endsWithChar (c :: z) ch := by
  induction w with
  | nil => rfl
  | cons a rest ih =>
    rw [List.cons_append, endsWith_cons (by simp), ih]

/-- Helper: when every semicolon is escaped, fusing the split segments
un-escapes the value. -/
theorem split_fuse {v : GoStr} (h : allEscB v = true) :
    ∀ x rest, splitChar (';') v = x :: rest → fuseSegs x rest = unescapeSemi v := by
  induction v using allEscB.induct with
  | case1 =>
    intro x rest hx
    simp only [splitChar, List.cons.injEq] at hx
    rw [← hx.1, ← hx.2]
    rfl
  | case2 tail => simp [allEscB] at h
  | case3 rest ih =>
    have hrest : allEscB rest = true := by
      simpa [allEscB] using h
    have hsplit : splitChar (';') ('\\' :: ';' :: rest) = ['\\'] :: splitChar (';') rest := by
      simp [splitChar]
    intro x xs hx
    rw [hsplit] at hx
    cases hs : splitChar (';') rest with
    | nil => exact absurd hs (splitChar_ne_nil _ _)
    | cons y ys =>
      rw [hs] at hx
      simp only [List.cons.injEq] at hx
      rw [← hx.1, ← hx.2]
      have hiy := ih hrest y ys hs
      simp only [fuseSegs, unescapeSemi, List.dropLast, List.nil_append]
      rw [hiy]
  | case4 c rest h1 h2 ih =>
    have hrest : allEscB rest = true := by
      rw [allEscB_cons_eq (fun he => h1 he) h2] at h
      exact h
    have hu : unescapeSemi (c :: rest) = c :: unescapeSemi rest := unescapeSemi_cons h2
    cases hrc : rest with
    | nil =>
      subst hrc
      intro x xs hx
      simp only [splitChar, if_neg (fun he => h1 he), List.cons.injEq] at hx
      rw [← hx.1, ← hx.2, hu]
      rfl
    | cons d r2 =>
      have hd : d ≠ ';' := by
        intro hdc
        rw [hrc, hdc] at hrest
        simp [allEscB] at hrest
      intro x xs hx
      rw [← hrc] at hx
      rw [← hrc]
      cases hs : splitChar (';') rest with
      | nil => exact absurd hs (splitChar_ne_nil _ _)
      | cons y ys =>
        have hyne : y ≠ [] := by
          rw [hrc] at hs
          simp only [splitChar, if_neg hd] at hs
          cases hs2 : splitChar (';') r2 with
          | nil => exact absurd hs2 (splitChar_ne_nil _ _)
          | cons z zs =>
            rw [hs2] at hs
            simp only [List.cons.injEq] at hs
            rw [← hs.1]
            simp
        simp only [splitChar, if_neg (fun he => h1 he), hs, List.cons.injEq] at hx
        rw [← hx.1, ← hx.2, hu]
        cases hys : ys with
        | nil =>
          subst hys
          have hiy := ih hrest y [] hs
          simp only [fuseSegs] at hiy ⊢
          rw [hiy]
        | cons z zs =>
          subst hys
          have hiy := ih hrest y (z :: zs) hs
          simp only [fuseSegs] at hiy ⊢
          rw [← hiy]
          cases hyc : y with
          | nil => exact absurd hyc hyne
          | cons y0 yt =>
            simp [List.dropLast_cons_of_ne_nil, List.cons_append]

end DeskFile

namespace DeskFile

/-- Helper: when every segment before the last is non-empty and ends with a
backslash, the merging loop faults iff the final segment also ends with a
backslash, and otherwise fuses everything into one segment. -/
theorem mergeFrom_fused : ∀ (rest : List GoStr) (a : GoStr),
    (∀ s ∈ (a :: rest).dropLast, s ≠ [] ∧ endsWithChar s '\\' = true) →
    mergeFrom a rest =
      (if endsWithChar (rest.getLastD a) '\\' = true then none
       else some [fuseSegs a rest]) := by
  intro rest
  induction rest with
  | nil =>
    intro a hall
    simp only [mergeFrom, fuseSegs, List.getLastD]
  | cons b rest2 ih =>
    intro a hall
    have ha : a ≠ [] ∧ endsWithChar a '\\' = true := by
      apply hall
      simp [List.dropLast]
    have haz : a.dropLast ++ ';' :: b ≠ [] := by simp
    have hbfact : rest2 ≠ [] → b ≠ [] ∧ endsWithChar b '\\' = true := by
      intro hne
      apply hall
      cases rest2 with
      | nil => exact absurd rfl hne
      | cons z zs => simp [List.dropLast]
    have hall2 : ∀ s ∈ ((a.dropLast ++ ';' :: b) :: rest2).dropLast,
        s ≠ [] ∧ endsWithChar s '\\' = true := by
      cases rest2 with
      | nil => simp [List.dropLast]
      | cons z zs =>
        intro s hmem
        simp only [List.dropLast, List.mem_cons] at hmem
        rcases hmem with rfl | hmem2
        · refine ⟨haz, ?_⟩
          have hb := hbfact (by simp)
          rw [endsWith_append_cons, endsWith_cons hb.1]
          exact hb.2
        · apply hall
          simp only [List.dropLast, List.mem_cons]
          right
          right
          exact hmem2
    have hstep : mergeFrom a (b :: rest2) = mergeFrom (a.dropLast ++ ';' :: b) rest2 := by
      simp only [mergeFrom, if_pos ha.2]
    rw [hstep, ih (a.dropLast ++ ';' :: b) hall2]
    cases hr2 : rest2 with
    | nil =>
      have hlast : endsWithChar (a.dropLast ++ ';' :: b) '\\' = endsWithChar b '\\' := by
        rw [endsWith_append_cons]
        cases hb0 : b with
        | nil => simp [endsWithChar]
        | cons b0 bt => rw [endsWith_cons (by simp)]
      simp only [List.getLastD, hlast]
      have hfuse : fuseSegs (a.dropLast ++ ';' :: b) [] = fuseSegs a [b] := by
        simp [fuseSegs]
      rw [hfuse]
      rfl
    | cons z zs =>
      simp only [List.getLastD_cons]
      have hfuse : fuseSegs (a.dropLast ++ ';' :: b) (z :: zs) = fuseSegs a (b :: z :: zs) := by
        have hb := hbfact (by rw [hr2]; simp)
        simp only [fuseSegs]
        rw [List.dropLast_append_of_ne_nil _ (by simp : (';' :: b) ≠ [])]
        cases hb0 : b with
        | nil => exact absurd hb0 hb.1
        | cons b0 bt =>
          simp [List.append_assoc]
      rw [hfuse]

end DeskFile

namespace DeskFile

/-- C3 (amended): `AsArray` splits on unescaped semicolons only — `a;b;c`
gives the three elements `a`, `b`, `c`; `a;b;` gives the two elements `a`,
`b` (no trailing empty element); `a\\;b;c` gives the two elements `a;b`
(with a literal `;`) and `c`; and when the value is not an array and
`AsArray` completes without fault, the result is the single element equal to
the whole value with every escaped `\\;` un-escaped to `;`. -/
theorem c3_asArray_amended :
    asArray (("a;b;c").data) = some [("a").data, ("b").data, ("c").data] ∧
    asArray (("a;b;").data) = some [("a").data, ("b").data] ∧
    asArray (("a\\;b;c").data) = some [("a;b").data, ("c").data] ∧
    (∀ v l, isArray v = false → asArray v = some l → l = [unescapeSemi v]) := by
  refine ⟨by decide, by decide, by decide, ?_⟩
  intro v l hA hS
  have hE : allEscB v = true := (unesc_zero_iff_allEsc v).mp ((isArray_false_iff v).mp hA)
  have hinit := split_allEsc hE
  by_cases hev : endsWithChar v (';') = true
  · exfalso
    have hcs : 0 < countSemiGo v := countSemi_pos (mem_of_endsWith hev)
    have hlen : 2 ≤ (splitChar (';') v).length := by
      rw [splitSemi_length]
      omega
    simp only [asArray] at hS
    rw [if_pos hev] at hS
    cases htr : (splitChar (';') v).dropLast with
    | nil =>
      have hz : (splitChar (';') v).length - 1 = 0 := by
        rw [← List.length_dropLast, htr]
        rfl
      omega
    | cons a rest =>
      rw [htr] at hS
      have hcond : ∀ s ∈ (a :: rest).dropLast, s ≠ [] ∧ endsWithChar s '\\' = true := by
        intro s hmem
        apply hinit
        rw [htr]
        exact List.dropLast_subset _ hmem
      have hlastBS : endsWithChar (rest.getLastD a) '\\' = true := by
        have hm : rest.getLastD a ∈ (splitChar (';') v).dropLast := by
          rw [htr]
          exact List.getLastD_mem_cons rest a
        exact (hinit _ hm).2
      simp only [mergeSegs] at hS
      rw [mergeFrom_fused rest a hcond, if_pos hlastBS] at hS
      exact Option.noConfusion hS
  · simp only [asArray] at hS
    rw [if_neg hev] at hS
    cases hsv : splitChar (';') v with
    | nil => exact absurd hsv (splitChar_ne_nil _ _)
    | cons x rest =>
      rw [hsv] at hS
      have hcond : ∀ s ∈ (x :: rest).dropLast, s ≠ [] ∧ endsWithChar s '\\' = true := by
        intro s hmem
        apply hinit
        rw [hsv]
        exact hmem
      simp only [mergeSegs] at hS
      rw [mergeFrom_fused rest x hcond] at hS
      by_cases hlast : endsWithChar (rest.getLastD x) '\\' = true
      · rw [if_pos hlast] at hS
        exact Option.noConfusion hS
      · rw [if_neg hlast] at hS
        have hl : [fuseSegs x rest] = l := Option.some.inj hS
        rw [← hl, split_fuse hE x rest hsv]

/-- C3 witness: the amended theorem applied at the semicolon-free value
`ab`. -/
theorem c3_asArray_amended_witness :
    isArray (("ab").data) = false ∧ asArray (("ab").data) = some [("ab").data] ∧
    [("ab").data] = [unescapeSemi (("ab").data)] := by
  refine ⟨by decide, by decide, ?_⟩
  exact c3_asArray_amended.2.2.2 (("ab").data) [("ab").data] (by decide) (by decide)

end DeskFile
